import Mathlib

/-!
Verification of the real-time audio relay and barge-in arbitration engine
(`realtime.py`) of the vesta-receptionist-starter repository.

The development shallowly embeds the program:

* the μ-law codec (`mulaw_byte_to_pcm16`, `rms_from_mulaw_bytes`) as pure
  functions on `Nat` / `Int` / `ℝ`;
* the per-session mutable state closed over by the two pumps
  (`speaking`, `suppress_outbound`, `current_response_id`, `loud_ms_accum`)
  as a `SessionState` record, with each source-level event handler as an
  explicit step function returning the new state together with the list of
  actions (messages sent, timer reschedules) it performs;
* the debounce-timer machinery (`schedule_commit` / `commit_after_delay`)
  as a timed model with an explicit pool of timer tasks carrying absolute
  deadlines and statuses, so that cancellation behaviour is a theorem and
  not an assumption.

Machine integers do not overflow anywhere relevant (Python integers are
unbounded), so `Nat` / `Int` are used directly.
-/

namespace Vesta

/-! ### μ-law codec (realtime.py lines 12-33) -/

def SIGN_BIT : Nat := 0x80

def QUANT_MASK : Nat := 0x0F

def BIAS : Nat := 0x84

/-- `mulaw_byte_to_pcm16` from realtime.py lines 16-23.  Python's
`(~b) & 0xFF` equals `(b ^^^ 0xFF) &&& 0xFF` on nonnegative integers. -/
def mulaw_byte_to_pcm16 (b : Nat) : Int :=
  let c := (b ^^^ 0xFF) &&& 0xFF
  let sign := c &&& SIGN_BIT
  let exponent := (c >>> 4) &&& 0x07
  let mantissa := c &&& QUANT_MASK
  let magnitude := ((mantissa <<< 4) + BIAS) <<< exponent
  let sample : Int := (magnitude : Int) - (BIAS : Int)
  if sign ≠ 0 then -sample else sample

/-- Accumulator loop of `rms_from_mulaw_bytes` (lines 28-32):
`acc += s * s` over the frame. -/
def acc_squares (bs : List Nat) : Int :=
  bs.foldl (fun a bt => a + mulaw_byte_to_pcm16 bt * mulaw_byte_to_pcm16 bt) 0

/-- `rms_from_mulaw_bytes` from realtime.py lines 25-33: `0.0` for the empty
frame, otherwise `(acc / n) ** 0.5`, i.e. the square root of the mean of the
squared decoded samples, modelled over `ℝ`. -/
noncomputable def rms_from_mulaw_bytes (bs : List Nat) : ℝ :=
  if bs = [] then 0
  else Real.sqrt ((acc_squares bs : ℝ) / (bs.length : ℝ))

/-- Modelled from the spec: the reference μ-law expansion named by the claim —
"invert all bits, extract sign/exponent/mantissa fields, reconstruct magnitude
via `((mantissa << 4) + BIAS) << exponent`, subtract BIAS, negate if sign bit
set" — written with plain arithmetic, independently of the source's
bit-twiddling, for comparison against `mulaw_byte_to_pcm16`. -/
def mulaw_ref (b : Nat) : Int :=
  let c := 255 - b
  let exponent := (c / 16) % 8
  let mantissa := c % 16
  let magnitude := (mantissa * 16 + 132) * 2 ^ exponent
  let sample : Int := (magnitude : Int) - 132
  if 128 ≤ c then -sample else sample

/-! ### Barge-in gate constants (lines 132-135) -/

def FRAME_MS : Nat := 20

def LOUD_MS_REQUIRED : Nat := 120

def RMS_GATE : Nat := 7000

/-- The decision `rms_from_mulaw_bytes(mu_bytes) >= RMS_GATE` of line 152, in
exact integer arithmetic (both sides are nonnegative, so the comparison of the
square root against the gate equals the comparison of the mean square against
the squared gate; `frame_loud_iff_rms_ge` below proves the equivalence). -/
def frame_loud (bs : List Nat) : Bool :=
  decide (bs ≠ [] ∧ (RMS_GATE : Int) * RMS_GATE * bs.length ≤ acc_squares bs)

/-! ### Session state and messages

The mutable variables `speaking`, `suppress_outbound`, `current_response_id`
and `loud_ms_accum` closed over by the two pumps (lines 72-74, 135). -/

structure SessionState where
  speaking : Bool
  suppress_outbound : Bool
  current_response_id : Option String
  loud_ms_accum : Nat
  deriving DecidableEq, Repr

def initState : SessionState :=
  { speaking := false, suppress_outbound := false
    current_response_id := none, loud_ms_accum := 0 }

/-- Messages the session sends on the OpenAI websocket.  `appendAudio`
carries the frame's audio (the source forwards the base64 payload; the model
carries the decoded bytes, an injective image of it). -/
inductive OAIMsg
  | sessionUpdate
  | greetingCreate
  | appendAudio (bs : List Nat)
  | commitBuffer
  | respCreate
  | cancelTargeted (id : String)
  | cancelUntargeted
  | clearInput
  deriving DecidableEq, Repr

/-- An observable action of a pump step: a send on the OpenAI socket, a media
send to Twilio, or a call to `schedule_commit`. -/
inductive Act
  | sendOAI (m : OAIMsg)
  | sendTw (payload : String)
  | schedule
  deriving DecidableEq, Repr

/-- Python truthiness of an optional string (`None` and `""` are falsy). -/
def truthy : Option String → Bool
  | none => false
  | some s => s ≠ ""

/-- Python `x or y` on two optional strings, as used at line 190. -/
def pyOr (a b : Option String) : Option String :=
  if truthy a then a else b

/-! ### hard_cancel (lines 115-129)

The body is given as an explicit list of primitive operations so that the
order of the flag mutations relative to the network sends (the point of claim
C4) is a fact about the definition rather than a convention. -/

inductive HAct
  | setSuppress (v : Bool)
  | setSpeaking (v : Bool)
  | setResponseId (r : Option String)
  | setAccum (n : Nat)
  | send (m : OAIMsg)
  deriving DecidableEq, Repr

def applyHAct (st : SessionState) (a : HAct) : SessionState :=
  match a with
  | .setSuppress v => { st with suppress_outbound := v }
  | .setSpeaking v => { st with speaking := v }
  | .setResponseId r => { st with current_response_id := r }
  | .setAccum n => { st with loud_ms_accum := n }
  | .send _ => st

def sendsOf (l : List HAct) : List OAIMsg :=
  l.filterMap (fun a => match a with | .send m => some m | _ => none)

/-- Lines 121-124: the cancel request is targeted at the recorded response id
when it is truthy (Python `if current_response_id:`, so `None` and `""` both
fall back), untargeted otherwise. -/
def cancelMsgFor (rid : Option String) : OAIMsg :=
  match rid with
  | some id => if id ≠ "" then OAIMsg.cancelTargeted id else OAIMsg.cancelUntargeted
  | none => OAIMsg.cancelUntargeted

/-- The operations of `hard_cancel`, in source order: set `suppress_outbound`
and `speaking` (lines 118-119, before any network I/O), send the cancel —
targeted when `current_response_id` is truthy (line 121), untargeted otherwise
— then `input_audio_buffer.clear` (line 126), finally clear
`current_response_id` (line 129). -/
def hard_cancel_acts (rid : Option String) : List HAct :=
  [.setSuppress true, .setSpeaking false,
   .send (cancelMsgFor rid),
   .send .clearInput,
   .setResponseId none]

def hard_cancel (st : SessionState) : SessionState × List OAIMsg :=
  ((hard_cancel_acts st.current_response_id).foldl applyHAct st,
   sendsOf (hard_cancel_acts st.current_response_id))

/-- The full firing sequence at the call site (lines 155-156): `hard_cancel`
followed by the caller's `loud_ms_accum = 0`. -/
def fire_hard_cancel_acts (rid : Option String) : List HAct :=
  hard_cancel_acts rid ++ [.setAccum 0]

/-! ### Inbound media handling (lines 145-167) -/

/-- Processing of one well-formed `media` frame by `twilio_to_openai`:
the barge-in gate (lines 150-160), then the `input_audio_buffer.append`
(line 163) and `schedule_commit()` (line 167). -/
def twilio_media_step (st : SessionState) (p : List Nat) : SessionState × List Act :=
  let gated : SessionState × List OAIMsg :=
    if st.speaking then
      if frame_loud p then
        let acc := st.loud_ms_accum + FRAME_MS
        if LOUD_MS_REQUIRED ≤ acc then
          let hc := hard_cancel { st with loud_ms_accum := acc }
          ({ hc.1 with loud_ms_accum := 0 }, hc.2)
        else ({ st with loud_ms_accum := acc }, [])
      else ({ st with loud_ms_accum := 0 }, [])
    else ({ st with loud_ms_accum := 0 }, [])
  (gated.1, gated.2.map Act.sendOAI ++ [Act.sendOAI (.appendAudio p), Act.schedule])

/-! ### Outbound pump events (lines 180-210) -/

/-- Parsed upstream events: `response.created` (with the `response.id` and
top-level `id` fields), `response.output_audio.delta` (with its `delta`
field), `response.output_audio.done`, and any other event type. -/
inductive OAIEvent
  | created (respId topId : Option String)
  | delta (d : Option String)
  | done
  | other
  deriving DecidableEq, Repr

/-- One iteration of `openai_to_twilio`'s event loop on a parsed event. -/
def openai_step (st : SessionState) (e : OAIEvent) : SessionState × List Act :=
  match e with
  | .created respId topId =>
      ({ st with suppress_outbound := false
                 current_response_id := pyOr respId topId }, [])
  | .delta d =>
      if st.suppress_outbound then (st, [])
      else
        match d with
        | some s =>
            if s ≠ "" then ({ st with speaking := true }, [Act.sendTw s])
            else (st, [])
        | none => (st, [])
  | .done =>
      ({ st with speaking := false, current_response_id := none },
       [Act.sendOAI .clearInput])
  | .other => (st, [])

/-! ### Interleaved execution of the two pumps

The shared state is mutated by whichever pump runs; concurrency is modelled
as an arbitrary interleaving of atomic handler steps (each handler body runs
between two awaits on the shared state, matching the single-threaded asyncio
execution of the source). -/

/-- Events that keep both pumps running (no stop, no malformed input). -/
inductive LiveEv
  | media (p : List Nat)
  | twOther
  | oai (e : OAIEvent)
  deriving DecidableEq, Repr

def live_step (st : SessionState) (e : LiveEv) : SessionState × List Act :=
  match e with
  | .media p => twilio_media_step st p
  | .twOther => (st, [])
  | .oai e => openai_step st e

def runLive (st : SessionState) : List LiveEv → SessionState × List Act
  | [] => (st, [])
  | e :: es =>
      let r := live_step st e
      let rest := runLive r.1 es
      (rest.1, r.2 ++ rest.2)

/-- A run of consecutive inbound media frames (the arbiter's input in C1). -/
def runMedia (st : SessionState) : List (List Nat) → SessionState × List Act
  | [] => (st, [])
  | p :: ps =>
      let r := twilio_media_step st p
      let rest := runMedia r.1 ps
      (rest.1, r.2 ++ rest.2)

/-! ### Raw inbound messages and pump-level error behaviour (C8) -/

/-- A raw Twilio websocket text message, as discriminated by
`twilio_to_openai` (lines 141-170): a well-formed media frame; a `media`
event whose `media`/`payload` field is missing or whose payload is not valid
base64 (both raise — `KeyError` / `binascii.Error` — and only
`WebSocketDisconnect` is caught); `stop`; any other (or absent) event type;
or a message that is not a JSON object (`json.loads` / `.get` raise). -/
inductive TwMsg
  | media (p : List Nat)
  | mediaMalformed
  | stop
  | other (e : Option String)
  | unparseable
  deriving DecidableEq, Repr

/-- One iteration of `twilio_to_openai`'s loop.  `.error ()` models an
exception escaping the handler (terminating the pump with an error); the
`Bool` is true when the loop breaks (the `stop` event). -/
def twilio_step (st : SessionState) (m : TwMsg) :
    Except Unit (SessionState × List Act × Bool) :=
  match m with
  | .media p =>
      let r := twilio_media_step st p
      .ok (r.1, r.2, false)
  | .mediaMalformed => .error ()
  | .stop => .ok (st, [], true)
  | .other _ => .ok (st, [], false)
  | .unparseable => .error ()

/-- A raw upstream message: a parsed event, or one `json.loads` cannot
parse.  The latter raises inside the `async for`; `openai_to_twilio` wraps
the whole loop in `except Exception: pass`, so the pump ends rather than
crashing the process, but it does terminate. -/
inductive OAIRaw
  | parsed (e : OAIEvent)
  | unparseable
  deriving DecidableEq, Repr

def openai_pump_step (st : SessionState) (m : OAIRaw) :
    Except Unit (SessionState × List Act) :=
  match m with
  | .parsed e => .ok (openai_step st e)
  | .unparseable => .error ()

/-! ### Session setup (lines 66-95, 212) -/

/-- The upstream messages sent between accepting the Twilio connection and
starting the two pumps: `connect_openai` sends the `session.update`
configuration (lines 40-63), then `send_greeting` sends the scripted greeting
`response.create` (lines 86-94).  The pumps are only started afterwards
(line 212).  The `streamSid` from the start event is the only caller input
available at that point; the list does not depend on it. -/
def session_setup (_sid : String) : List OAIMsg :=
  [.sessionUpdate, .greetingCreate]

/-! ### Observers -/

def isCancel : OAIMsg → Bool
  | .cancelTargeted _ => true
  | .cancelUntargeted => true
  | _ => false

/-- Number of response-cancellation requests in an action trace. -/
def cancelCount (acts : List Act) : Nat :=
  acts.countP (fun a => match a with | .sendOAI m => isCancel m | _ => false)

/-- The media payloads forwarded to Twilio in an action trace. -/
def twSends (acts : List Act) : List String :=
  acts.filterMap (fun a => match a with | .sendTw s => some s | _ => none)

/-- The messages sent to OpenAI in an action trace. -/
def oaiSends (acts : List Act) : List OAIMsg :=
  acts.filterMap (fun a => match a with | .sendOAI m => some m | _ => none)

/-- Whether an interleaved event is the upstream `response.created` event
(the only event that clears `suppress_outbound`, line 189). -/
def isCreatedEv : LiveEv → Bool
  | .oai (.created _ _) => true
  | _ => false

/-- Effect of one upstream message on the server-side input audio buffer:
`append` adds the frame, `clear` empties it. -/
def applyBuf (buf : List (List Nat)) (m : OAIMsg) : List (List Nat) :=
  match m with
  | .appendAudio p => buf ++ [p]
  | .clearInput => []
  | _ => buf

def bufAfter (buf : List (List Nat)) (ms : List OAIMsg) : List (List Nat) :=
  ms.foldl applyBuf buf

/-! ### Loudness-pattern helpers (for C1) -/

/-- Length of the leading `true` run of a Boolean pattern. -/
def leadTrue : List Bool → Nat
  | true :: bs => leadTrue bs + 1
  | _ => 0

/-- Length of the longest unbroken `true` run of a Boolean pattern. -/
def longestTrueRun : List Bool → Nat
  | [] => 0
  | b :: bs => max (if b then leadTrue bs + 1 else 0) (longestTrueRun bs)

/-! ### Timed model of the debounce machinery (lines 97-113, 169-178)

`schedule_commit` cancels the previous `commit_task` (if it has not
completed) and creates a fresh one; the task sleeps `silence_delay_ms` and
then sends `input_audio_buffer.commit` followed by `response.create`
(a cancelled task's `CancelledError` is swallowed and it sends nothing).
Timer tasks are modelled explicitly: each carries its absolute deadline and a
status, so "at most one timer outstanding" is provable rather than built in.
Time is in milliseconds; `W` stands for `silence_delay_ms`. -/

inductive TStat
  | running
  | cancelled
  | taskDone
  deriving DecidableEq, Repr

/-- A timer task: absolute deadline and status, in creation order. -/
abbrev BTask := Nat × TStat

structure BState where
  tasks : List BTask
  cur : Option Nat
  deriving DecidableEq, Repr

def initB : BState := { tasks := [], cur := none }

inductive BMsg
  | commitBuf
  | respCreate
  deriving DecidableEq, Repr

inductive BEv
  | frame
  | stop
  deriving DecidableEq, Repr

/-- `commit_task.cancel()` on the task at index `i`: a running task becomes
cancelled; a task that is already done (or cancelled — `Task.done()` is also
true for cancelled tasks) is left alone, matching the
`if commit_task and not commit_task.done()` guard of line 103. -/
def cancelTask : List BTask → Nat → List BTask
  | [], _ => []
  | t :: ts, 0 => (if t.2 = TStat.running then (t.1, TStat.cancelled) else t) :: ts
  | t :: ts, i + 1 => t :: cancelTask ts i

/-- `schedule_commit` at absolute time `now` (lines 101-105): cancel the
current task if any, then create a fresh running task with deadline
`now + W` and point `commit_task` at it. -/
def schedule_commit_B (now W : Nat) (s : BState) : BState :=
  let ts :=
    match s.cur with
    | some i => cancelTask s.tasks i
    | none => s.tasks
  { tasks := ts ++ [(now + W, TStat.running)], cur := some ts.length }

/-- Fire every task selected by `p`: it becomes done and emits its
commit + response-request pair, tagged with its deadline. -/
def fireTasks (p : BTask → Bool) (s : BState) : BState × List (Nat × BMsg) :=
  ({ tasks := s.tasks.map (fun tk => if p tk then (tk.1, TStat.taskDone) else tk)
     cur := s.cur },
   ((s.tasks.filter p).map
     (fun tk => [(tk.1, BMsg.commitBuf), (tk.1, BMsg.respCreate)])).flatten)

/-- Fire the running tasks whose deadline has passed by time `t`. -/
def fireDue (t : Nat) (s : BState) : BState × List (Nat × BMsg) :=
  fireTasks (fun tk => decide (tk.2 = TStat.running ∧ tk.1 ≤ t)) s

/-- Fire every still-running task at its own deadline (the session outliving
all pending deadlines). -/
def fireAll (s : BState) : BState × List (Nat × BMsg) :=
  fireTasks (fun tk => decide (tk.2 = TStat.running)) s

/-- Process one timed inbound event: first any timers due by that time fire,
then a `frame` reschedules the debounce (line 167) while `stop` emits the
immediate final commit + response-request of the `finally` block
(lines 173-178) — note nothing cancels the pending task there. -/
def stepB (W : Nat) (s : BState) (e : Nat × BEv) : BState × List (Nat × BMsg) :=
  let fd := fireDue e.1 s
  match e.2 with
  | .frame => (schedule_commit_B e.1 W fd.1, fd.2)
  | .stop => (fd.1, fd.2 ++ [(e.1, BMsg.commitBuf), (e.1, BMsg.respCreate)])

/-- The timed trace of commit-related messages for a sequence of timed
inbound events, letting any timer still pending at the end fire. -/
def runB (W : Nat) (s : BState) : List (Nat × BEv) → List (Nat × BMsg)
  | [] => (fireAll s).2
  | e :: es => (stepB W s e).2 ++ runB W (stepB W s e).1 es

/-- The timer-pool state after a sequence of timed inbound events. -/
def stateAfter (W : Nat) (s : BState) : List (Nat × BEv) → BState
  | [] => s
  | e :: es => stateAfter W (stepB W s e).1 es

/-- Number of outstanding (running) timer tasks. -/
def countRunning (s : BState) : Nat :=
  s.tasks.countP (fun tk => decide (tk.2 = TStat.running))

/-- Number of commits in a timed output trace. -/
def commitCount (out : List (Nat × BMsg)) : Nat :=
  out.countP (fun m => decide (m.2 = BMsg.commitBuf))

/-! ## Codec lemmas -/

theorem acc_squares_eq (bs : List Nat) :
    acc_squares bs
      = (bs.map (fun b => mulaw_byte_to_pcm16 b * mulaw_byte_to_pcm16 b)).sum := by
  have h : ∀ (l : List Nat) (a : Int),
      l.foldl (fun x bt => x + mulaw_byte_to_pcm16 bt * mulaw_byte_to_pcm16 bt) a
        = a + (l.map (fun b => mulaw_byte_to_pcm16 b * mulaw_byte_to_pcm16 b)).sum := by
    intro l
    induction l with
    | nil => intro a; simp
    | cons b t ih =>
        intro a
        simp only [List.foldl_cons, List.map_cons, List.sum_cons, ih]
        ring
  simpa [acc_squares] using h bs 0

theorem acc_squares_nonneg (bs : List Nat) : 0 ≤ acc_squares bs := by
  rw [acc_squares_eq]
  apply List.sum_nonneg
  intro x hx
  simp only [List.mem_map] at hx
  obtain ⟨b, _, rfl⟩ := hx
  exact mul_self_nonneg _

/-- The exact-arithmetic gate decision agrees with the floating-point
comparison `rms_from_mulaw_bytes(bs) >= RMS_GATE` of line 152. -/
theorem frame_loud_iff_rms_ge (bs : List Nat) :
    frame_loud bs = true ↔ (RMS_GATE : ℝ) ≤ rms_from_mulaw_bytes bs := by
  by_cases h : bs = []
  · subst h
    simp [frame_loud, rms_from_mulaw_bytes, RMS_GATE]
  · have hn : 0 < bs.length := List.length_pos.mpr h
    have hnR : 0 < (bs.length : ℝ) := by exact_mod_cast hn
    have hq : 0 ≤ (acc_squares bs : ℝ) / (bs.length : ℝ) :=
      div_nonneg (by exact_mod_cast acc_squares_nonneg bs) hnR.le
    rw [rms_from_mulaw_bytes, if_neg h]
    rw [Real.le_sqrt (by norm_num [RMS_GATE]) hq]
    rw [le_div_iff₀ hnR]
    rw [frame_loud]
    simp only [decide_eq_true_eq]
    constructor
    · rintro ⟨-, hle⟩
      calc ((RMS_GATE : ℝ)) ^ 2 * (bs.length : ℝ)
          = (((RMS_GATE : Int) * RMS_GATE * bs.length : Int) : ℝ) := by push_cast; ring
        _ ≤ ((acc_squares bs : Int) : ℝ) := by exact_mod_cast hle
    · intro hle
      refine ⟨h, ?_⟩
      have : (((RMS_GATE : Int) * RMS_GATE * bs.length : Int) : ℝ)
          ≤ ((acc_squares bs : Int) : ℝ) := by
        calc (((RMS_GATE : Int) * RMS_GATE * bs.length : Int) : ℝ)
            = ((RMS_GATE : ℝ)) ^ 2 * (bs.length : ℝ) := by push_cast; ring
          _ ≤ _ := hle
      exact_mod_cast this

/-! ## C6 — μ-law expansion matches the reference formula -/

set_option maxRecDepth 8192 in
/-- C6: for every encoded byte value 0-255, decoding reproduces the claim's
reference μ-law expansion exactly (invert all bits, extract
sign/exponent/mantissa, magnitude `((mantissa << 4) + BIAS) << exponent`,
subtract BIAS, negate on sign), and the loudness of the single-byte frame
equals the absolute value of that reference linear sample. -/
theorem mulaw_decode_standard :
    ∀ b : Nat, b < 256 →
      mulaw_byte_to_pcm16 b = mulaw_ref b
      ∧ rms_from_mulaw_bytes [b] = |(mulaw_ref b : ℝ)| := by
  have hcode : ∀ b : Nat, b < 256 → mulaw_byte_to_pcm16 b = mulaw_ref b := by decide
  intro b hb
  refine ⟨hcode b hb, ?_⟩
  have hne : ([b] : List Nat) ≠ [] := by simp
  have hacc : acc_squares [b] = mulaw_byte_to_pcm16 b * mulaw_byte_to_pcm16 b := by
    simp [acc_squares]
  rw [rms_from_mulaw_bytes, if_neg hne, hacc, hcode b hb]
  have : ((mulaw_ref b * mulaw_ref b : Int) : ℝ) / ((List.length [b] : Nat) : ℝ)
      = ((mulaw_ref b : Int) : ℝ) ^ 2 := by
    push_cast
    simp
    ring
  rw [this, Real.sqrt_sq_eq_abs]

/-- Witness for C6 at the loudest byte 0x00. -/
theorem mulaw_decode_standard_witness :
    (0 : Nat) < 256
    ∧ (mulaw_byte_to_pcm16 0 = mulaw_ref 0
       ∧ rms_from_mulaw_bytes [0] = |(mulaw_ref 0 : ℝ)|) :=
  ⟨by decide, mulaw_decode_standard 0 (by decide)⟩

/-! ## C7 — decodeLoudness is the RMS of the decoded frame -/

/-- C7: `rms_from_mulaw_bytes` returns the root-mean-square magnitude of the
sample-by-sample μ-law-decoded frame, returns 0 on the empty frame, and is a
pure function (deterministic: equal inputs give equal outputs; the embedding
is a mathematical function, so the congruence conjunct records this). -/
theorem decode_loudness_rms :
    (∀ bs : List Nat,
       rms_from_mulaw_bytes bs
         = Real.sqrt
             ((bs.map (fun b => ((mulaw_byte_to_pcm16 b : ℝ)) ^ 2)).sum
               / (bs.length : ℝ)))
  ∧ rms_from_mulaw_bytes [] = 0
  ∧ (∀ bs : List Nat, rms_from_mulaw_bytes bs = rms_from_mulaw_bytes bs) := by
  refine ⟨?_, by simp [rms_from_mulaw_bytes], fun bs => rfl⟩
  intro bs
  by_cases h : bs = []
  · subst h
    simp [rms_from_mulaw_bytes]
  · rw [rms_from_mulaw_bytes, if_neg h]
    congr 1
    congr 1
    rw [acc_squares_eq]
    push_cast
    rw [List.map_map]
    have hfg : (Int.cast ∘ fun b => mulaw_byte_to_pcm16 b * mulaw_byte_to_pcm16 b)
        = (fun b : Nat => ((mulaw_byte_to_pcm16 b : ℝ)) ^ 2) := by
      funext b
      simp only [Function.comp_apply]
      push_cast
      ring
    rw [hfg]

/-! ## hard_cancel and media-step computation lemmas -/

theorem hard_cancel_fst (st : SessionState) :
    (hard_cancel st).1
      = { st with suppress_outbound := true, speaking := false,
                  current_response_id := none } := rfl

theorem hard_cancel_snd (st : SessionState) :
    (hard_cancel st).2 = [cancelMsgFor st.current_response_id, .clearInput] := rfl

theorem isCancel_cancelMsgFor (rid : Option String) :
    isCancel (cancelMsgFor rid) = true := by
  cases rid with
  | none => rfl
  | some id =>
      by_cases h : id = ""
      · simp [cancelMsgFor, h, isCancel]
      · simp [cancelMsgFor, h, isCancel]

theorem cancelCount_append (l1 l2 : List Act) :
    cancelCount (l1 ++ l2) = cancelCount l1 + cancelCount l2 :=
  List.countP_append _ _ _

theorem cancelCount_trigger (rid : Option String) (p : List Nat) :
    cancelCount [Act.sendOAI (cancelMsgFor rid), Act.sendOAI .clearInput,
                 Act.sendOAI (.appendAudio p), Act.schedule] = 1 := by
  cases rid with
  | none => rfl
  | some id =>
      by_cases h : id = ""
      · simp [cancelMsgFor, h, cancelCount, isCancel]
      · simp [cancelMsgFor, h, cancelCount, isCancel]

theorem media_step_not_speaking (st : SessionState) (p : List Nat)
    (hs : st.speaking = false) :
    twilio_media_step st p
      = ({ st with loud_ms_accum := 0 },
         [Act.sendOAI (.appendAudio p), Act.schedule]) := by
  simp [twilio_media_step, hs]

theorem media_step_quiet (st : SessionState) (p : List Nat)
    (hs : st.speaking = true) (hl : frame_loud p = false) :
    twilio_media_step st p
      = ({ st with loud_ms_accum := 0 },
         [Act.sendOAI (.appendAudio p), Act.schedule]) := by
  simp [twilio_media_step, hs, hl]

theorem media_step_accum (st : SessionState) (p : List Nat)
    (hs : st.speaking = true) (hl : frame_loud p = true)
    (hacc : st.loud_ms_accum + FRAME_MS < LOUD_MS_REQUIRED) :
    twilio_media_step st p
      = ({ st with loud_ms_accum := st.loud_ms_accum + FRAME_MS },
         [Act.sendOAI (.appendAudio p), Act.schedule]) := by
  have hnot : ¬ (LOUD_MS_REQUIRED ≤ st.loud_ms_accum + FRAME_MS) := by omega
  simp [twilio_media_step, hs, hl, hnot]

theorem media_step_trigger (st : SessionState) (p : List Nat)
    (hs : st.speaking = true) (hl : frame_loud p = true)
    (hacc : LOUD_MS_REQUIRED ≤ st.loud_ms_accum + FRAME_MS) :
    twilio_media_step st p
      = ({ st with speaking := false, suppress_outbound := true,
                   current_response_id := none, loud_ms_accum := 0 },
         [Act.sendOAI (cancelMsgFor st.current_response_id),
          Act.sendOAI .clearInput,
          Act.sendOAI (.appendAudio p), Act.schedule]) := by
  simp [twilio_media_step, hs, hl, hacc, hard_cancel_fst, hard_cancel_snd]

theorem runMedia_nil (st : SessionState) : runMedia st [] = (st, []) := rfl

theorem runMedia_cons (st : SessionState) (p : List Nat) (ps : List (List Nat)) :
    runMedia st (p :: ps)
      = ((runMedia (twilio_media_step st p).1 ps).1,
         (twilio_media_step st p).2 ++ (runMedia (twilio_media_step st p).1 ps).2) := rfl

/-! ## Arbiter run lemmas (C1) -/

theorem leadTrue_le_longestTrueRun (l : List Bool) : leadTrue l ≤ longestTrueRun l := by
  induction l with
  | nil => simp [leadTrue, longestTrueRun]
  | cons b t ih =>
      cases b with
      | true => simp [leadTrue, longestTrueRun]
      | false => simp [leadTrue, longestTrueRun]

/-- After the arbiter has stopped the assistant (`speaking = false`), a run of
inbound media frames emits no cancellation and keeps the accumulator at 0. -/
theorem runMedia_not_speaking (ps : List (List Nat)) :
    ∀ st : SessionState, st.speaking = false → st.loud_ms_accum = 0 →
      cancelCount (runMedia st ps).2 = 0
      ∧ (runMedia st ps).1.speaking = false
      ∧ (runMedia st ps).1.loud_ms_accum = 0 := by
  induction ps with
  | nil =>
      intro st hs ha
      simp [runMedia_nil, cancelCount, hs, ha]
  | cons p ps ih =>
      intro st hs ha
      rw [runMedia_cons, media_step_not_speaking st p hs]
      have hrec := ih { st with loud_ms_accum := 0 } hs rfl
      refine ⟨?_, hrec.2.1, hrec.2.2⟩
      rw [cancelCount_append, hrec.1]
      rfl

/-- While the assistant is speaking and no unbroken above-gate run (counting
the pending leading credit `c`) reaches the sustained threshold, no
cancellation is emitted. -/
theorem runMedia_no_cancel (fs : List (List Nat)) :
    ∀ (st : SessionState) (c : Nat), st.speaking = true →
      st.loud_ms_accum = FRAME_MS * c →
      FRAME_MS * (c + leadTrue (fs.map frame_loud)) < LOUD_MS_REQUIRED →
      FRAME_MS * longestTrueRun (fs.map frame_loud) < LOUD_MS_REQUIRED →
      cancelCount (runMedia st fs).2 = 0 := by
  induction fs with
  | nil =>
      intro st c hs ha hlead hlong
      simp [runMedia_nil, cancelCount]
  | cons p ps ih =>
      intro st c hs ha hlead hlong
      cases hl : frame_loud p with
      | true =>
          have hlead' : leadTrue ((p :: ps).map frame_loud)
              = leadTrue (ps.map frame_loud) + 1 := by
            simp [hl, leadTrue]
          have hstep : twilio_media_step st p
              = ({ st with loud_ms_accum := st.loud_ms_accum + FRAME_MS },
                 [Act.sendOAI (.appendAudio p), Act.schedule]) := by
            refine media_step_accum st p hs hl ?_
            rw [ha]
            have := hlead
            rw [hlead'] at this
            simp only [FRAME_MS, LOUD_MS_REQUIRED] at this ⊢
            omega
          rw [runMedia_cons, hstep, cancelCount_append]
          have hlong' : FRAME_MS * longestTrueRun (ps.map frame_loud) < LOUD_MS_REQUIRED := by
            have : longestTrueRun (ps.map frame_loud)
                ≤ longestTrueRun ((p :: ps).map frame_loud) := by
              simp [longestTrueRun, hl]
            have h20 : (0 : Nat) < FRAME_MS := by simp [FRAME_MS]
            calc FRAME_MS * longestTrueRun (ps.map frame_loud)
                ≤ FRAME_MS * longestTrueRun ((p :: ps).map frame_loud) :=
                  Nat.mul_le_mul_left _ this
              _ < LOUD_MS_REQUIRED := hlong
          have hrec := ih { st with loud_ms_accum := st.loud_ms_accum + FRAME_MS } (c + 1)
            hs (by rw [ha]; ring)
            (by rw [hlead'] at hlead
                simp only [FRAME_MS, LOUD_MS_REQUIRED] at hlead ⊢
                omega)
            hlong'
          rw [hrec]
          rfl
      | false =>
          have hstep := media_step_quiet st p hs hl
          rw [runMedia_cons, hstep, cancelCount_append]
          have hlead0 : leadTrue (ps.map frame_loud) ≤ longestTrueRun (ps.map frame_loud) :=
            leadTrue_le_longestTrueRun _
          have hlong' : longestTrueRun ((p :: ps).map frame_loud)
              = longestTrueRun (ps.map frame_loud) := by
            simp [longestTrueRun, hl]
          have hrec := ih { st with loud_ms_accum := 0 } 0 hs (by simp)
            (by rw [hlong'] at hlong
                have h20 : (0 : Nat) < FRAME_MS := by simp [FRAME_MS]
                calc FRAME_MS * (0 + leadTrue (ps.map frame_loud))
                    ≤ FRAME_MS * longestTrueRun (ps.map frame_loud) := by
                      simpa using Nat.mul_le_mul_left FRAME_MS hlead0
                  _ < LOUD_MS_REQUIRED := hlong)
            (by rw [hlong'] at hlong; exact hlong)
          rw [hrec]
          rfl

/-- While the assistant is speaking with accumulator credit `c` below the
threshold, a pattern containing an above-gate run that reaches the threshold
triggers exactly one cancellation, and the accumulator ends at 0. -/
theorem runMedia_one_cancel (fs : List (List Nat)) :
    ∀ (st : SessionState) (c : Nat), st.speaking = true →
      st.loud_ms_accum = FRAME_MS * c →
      FRAME_MS * c < LOUD_MS_REQUIRED →
      (LOUD_MS_REQUIRED ≤ FRAME_MS * (c + leadTrue (fs.map frame_loud))
        ∨ LOUD_MS_REQUIRED ≤ FRAME_MS * longestTrueRun (fs.map frame_loud)) →
      cancelCount (runMedia st fs).2 = 1
      ∧ (runMedia st fs).1.loud_ms_accum = 0 := by
  induction fs with
  | nil =>
      intro st c hs ha hc hrun
      exfalso
      simp only [List.map_nil, leadTrue, longestTrueRun] at hrun
      simp only [FRAME_MS, LOUD_MS_REQUIRED] at hrun hc
      omega
  | cons p ps ih =>
      intro st c hs ha hc hrun
      cases hl : frame_loud p with
      | true =>
          have hlead' : leadTrue ((p :: ps).map frame_loud)
              = leadTrue (ps.map frame_loud) + 1 := by
            simp [hl, leadTrue]
          by_cases htr : LOUD_MS_REQUIRED ≤ st.loud_ms_accum + FRAME_MS
          · -- this frame fires the hard-cancel
            rw [runMedia_cons, media_step_trigger st p hs hl htr, cancelCount_append]
            have hrest := runMedia_not_speaking ps
              { st with speaking := false, suppress_outbound := true,
                        current_response_id := none, loud_ms_accum := 0 }
              rfl rfl
            refine ⟨?_, hrest.2.2⟩
            rw [hrest.1, cancelCount_trigger]
          · -- the accumulator only grows
            have hstep : twilio_media_step st p
                = ({ st with loud_ms_accum := st.loud_ms_accum + FRAME_MS },
                   [Act.sendOAI (.appendAudio p), Act.schedule]) :=
              media_step_accum st p hs hl (by omega)
            rw [runMedia_cons, hstep, cancelCount_append]
            have hrun' : LOUD_MS_REQUIRED ≤ FRAME_MS * ((c + 1) + leadTrue (ps.map frame_loud))
                ∨ LOUD_MS_REQUIRED ≤ FRAME_MS * longestTrueRun (ps.map frame_loud) := by
              rcases hrun with h | h
              · left
                rw [hlead'] at h
                calc LOUD_MS_REQUIRED ≤ FRAME_MS * (c + (leadTrue (ps.map frame_loud) + 1)) := h
                  _ = FRAME_MS * ((c + 1) + leadTrue (ps.map frame_loud)) := by ring
              · have hmax : longestTrueRun ((p :: ps).map frame_loud)
                    = max (leadTrue (ps.map frame_loud) + 1)
                        (longestTrueRun (ps.map frame_loud)) := by
                  simp [longestTrueRun, hl]
                rw [hmax] at h
                rcases Nat.le_total (leadTrue (ps.map frame_loud) + 1)
                    (longestTrueRun (ps.map frame_loud)) with hle | hle
                · right
                  rw [Nat.max_eq_right hle] at h
                  exact h
                · left
                  rw [Nat.max_eq_left hle] at h
                  calc LOUD_MS_REQUIRED ≤ FRAME_MS * (leadTrue (ps.map frame_loud) + 1) := h
                    _ ≤ FRAME_MS * ((c + 1) + leadTrue (ps.map frame_loud)) :=
                        Nat.mul_le_mul_left _ (by omega)
            have hrec := ih { st with loud_ms_accum := st.loud_ms_accum + FRAME_MS } (c + 1)
              hs (by rw [ha]; ring)
              (by rw [ha] at htr; simp only [FRAME_MS, LOUD_MS_REQUIRED] at htr ⊢; omega)
              hrun'
            refine ⟨?_, hrec.2⟩
            rw [hrec.1]
            rfl
      | false =>
          have hstep := media_step_quiet st p hs hl
          rw [runMedia_cons, hstep, cancelCount_append]
          have hlong' : longestTrueRun ((p :: ps).map frame_loud)
              = longestTrueRun (ps.map frame_loud) := by
            simp [longestTrueRun, hl]
          have hlead' : leadTrue ((p :: ps).map frame_loud) = 0 := by
            simp [hl, leadTrue]
          have hrun' : LOUD_MS_REQUIRED ≤ FRAME_MS * (0 + leadTrue (ps.map frame_loud))
              ∨ LOUD_MS_REQUIRED ≤ FRAME_MS * longestTrueRun (ps.map frame_loud) := by
            rcases hrun with h | h
            · exfalso
              rw [hlead', Nat.add_zero] at h
              omega
            · right
              rw [hlong'] at h
              exact h
          have hrec := ih { st with loud_ms_accum := 0 } 0 hs (by simp)
            (by simp [FRAME_MS, LOUD_MS_REQUIRED]) hrun'
          refine ⟨?_, hrec.2⟩
          rw [hrec.1]
          rfl

/-- C1: the barge-in gate.  The loudness decision is the RMS-vs-gate
comparison; while the assistant is speaking, an above-gate frame adds the
frame duration to the sustained-loudness accumulator (when this stays below
the threshold, no cancellation), a below-gate frame resets it to zero; a
sequence of inbound frames whose loudness pattern has no unbroken above-gate
run reaching `LOUD_MS_REQUIRED` never cancels, while a pattern with a run
reaching it triggers exactly one cancellation and leaves the accumulator
reset to zero. -/
theorem barge_in_gate :
    (∀ bs : List Nat, frame_loud bs = true ↔ (RMS_GATE : ℝ) ≤ rms_from_mulaw_bytes bs)
    ∧ (∀ (st : SessionState) (p : List Nat),
        st.speaking = true → frame_loud p = true →
        st.loud_ms_accum + FRAME_MS < LOUD_MS_REQUIRED →
        (twilio_media_step st p).1.loud_ms_accum = st.loud_ms_accum + FRAME_MS
        ∧ cancelCount (twilio_media_step st p).2 = 0)
    ∧ (∀ (st : SessionState) (p : List Nat),
        st.speaking = true → frame_loud p = false →
        (twilio_media_step st p).1.loud_ms_accum = 0
        ∧ cancelCount (twilio_media_step st p).2 = 0)
    ∧ (∀ (st : SessionState) (fs : List (List Nat)),
        st.speaking = true → st.loud_ms_accum = 0 →
        FRAME_MS * longestTrueRun (fs.map frame_loud) < LOUD_MS_REQUIRED →
        cancelCount (runMedia st fs).2 = 0)
    ∧ (∀ (st : SessionState) (fs : List (List Nat)),
        st.speaking = true → st.loud_ms_accum = 0 →
        LOUD_MS_REQUIRED ≤ FRAME_MS * longestTrueRun (fs.map frame_loud) →
        cancelCount (runMedia st fs).2 = 1
        ∧ (runMedia st fs).1.loud_ms_accum = 0) := by
  refine ⟨frame_loud_iff_rms_ge, ?_, ?_, ?_, ?_⟩
  · intro st p hs hl hacc
    rw [media_step_accum st p hs hl hacc]
    exact ⟨rfl, rfl⟩
  · intro st p hs hl
    rw [media_step_quiet st p hs hl]
    exact ⟨rfl, rfl⟩
  · intro st fs hs ha hlong
    refine runMedia_no_cancel fs st 0 hs (by simpa using ha) ?_ hlong
    have : leadTrue (fs.map frame_loud) ≤ longestTrueRun (fs.map frame_loud) :=
      leadTrue_le_longestTrueRun _
    have h20 : (0 : Nat) < FRAME_MS := by simp [FRAME_MS]
    calc FRAME_MS * (0 + leadTrue (fs.map frame_loud))
        ≤ FRAME_MS * longestTrueRun (fs.map frame_loud) := by
          simpa using Nat.mul_le_mul_left FRAME_MS this
      _ < LOUD_MS_REQUIRED := hlong
  · intro st fs hs ha hlong
    exact runMedia_one_cancel fs st 0 hs (by simpa using ha)
      (by simp [FRAME_MS, LOUD_MS_REQUIRED]) (Or.inr hlong)

/-! ## Suppression lemmas (C2) -/

theorem twSends_append (l1 l2 : List Act) :
    twSends (l1 ++ l2) = twSends l1 ++ twSends l2 :=
  List.filterMap_append _ _ _

theorem twSends_oai_append (ms : List OAIMsg) (p : List Nat) :
    twSends (ms.map Act.sendOAI ++ [Act.sendOAI (.appendAudio p), Act.schedule]) = [] := by
  induction ms with
  | nil => rfl
  | cons m t ih => simp [twSends, List.filterMap_cons]

/-- The inbound pump never sends media to Twilio. -/
theorem twSends_media_step (st : SessionState) (p : List Nat) :
    twSends (twilio_media_step st p).2 = [] := by
  cases hs : st.speaking with
  | false => rw [media_step_not_speaking st p hs]; exact twSends_oai_append [] p
  | true =>
      cases hl : frame_loud p with
      | false => rw [media_step_quiet st p hs hl]; exact twSends_oai_append [] p
      | true =>
          by_cases hacc : LOUD_MS_REQUIRED ≤ st.loud_ms_accum + FRAME_MS
          · rw [media_step_trigger st p hs hl hacc]
            exact twSends_oai_append [cancelMsgFor st.current_response_id, .clearInput] p
          · rw [media_step_accum st p hs hl (by omega)]
            exact twSends_oai_append [] p

/-- Suppression, once on, is preserved by every inbound media frame. -/
theorem media_step_suppress (st : SessionState) (p : List Nat)
    (h : st.suppress_outbound = true) :
    (twilio_media_step st p).1.suppress_outbound = true := by
  cases hs : st.speaking with
  | false => rw [media_step_not_speaking st p hs]; exact h
  | true =>
      cases hl : frame_loud p with
      | false => rw [media_step_quiet st p hs hl]; exact h
      | true =>
          by_cases hacc : LOUD_MS_REQUIRED ≤ st.loud_ms_accum + FRAME_MS
          · rw [media_step_trigger st p hs hl hacc]
          · rw [media_step_accum st p hs hl (by omega)]; exact h

/-- Any single step other than `response.created` neither forwards media to
Twilio nor clears suppression, when suppression is on. -/
theorem live_step_suppressed (st : SessionState) (e : LiveEv)
    (h : st.suppress_outbound = true) (hne : isCreatedEv e = false) :
    twSends (live_step st e).2 = []
    ∧ (live_step st e).1.suppress_outbound = true := by
  cases e with
  | media p => exact ⟨twSends_media_step st p, media_step_suppress st p h⟩
  | twOther => exact ⟨rfl, h⟩
  | oai ev =>
      cases ev with
      | created r t => simp [isCreatedEv] at hne
      | delta d =>
          constructor
          · simp [live_step, openai_step, h, twSends]
          · simp [live_step, openai_step, h]
      | done => exact ⟨rfl, h⟩
      | other => exact ⟨rfl, h⟩

theorem runLive_nil (st : SessionState) : runLive st [] = (st, []) := rfl

theorem runLive_cons (st : SessionState) (e : LiveEv) (es : List LiveEv) :
    runLive st (e :: es)
      = ((runLive (live_step st e).1 es).1,
         (live_step st e).2 ++ (runLive (live_step st e).1 es).2) := rfl

/-- With suppression on, an event sequence containing no `response.created`
forwards no media to Twilio at all. -/
theorem runLive_suppressed (evs : List LiveEv) :
    ∀ st : SessionState, st.suppress_outbound = true →
      (∀ e ∈ evs, isCreatedEv e = false) →
      twSends (runLive st evs).2 = [] := by
  induction evs with
  | nil => intro st _ _; rfl
  | cons e es ih =>
      intro st h hne
      rw [runLive_cons, twSends_append]
      have hstep := live_step_suppressed st e h (hne e (List.mem_cons_self e es))
      rw [hstep.1, List.nil_append]
      exact ih _ hstep.2 (fun e' he' => hne e' (List.mem_cons_of_mem _ he'))

/-- C2: the suppression invariant.  While `suppress_outbound` is true, no
step other than `response.created` forwards any audio payload to the
telephony side and suppression stays on (so after a hard-cancel — which sets
it — no `audioDelta` is forwarded for the remainder of the cancelled
response); `response.created` clears suppression and records the response
id. -/
theorem suppression_invariant :
    (∀ (st : SessionState) (e : LiveEv),
        st.suppress_outbound = true → isCreatedEv e = false →
        twSends (live_step st e).2 = []
        ∧ (live_step st e).1.suppress_outbound = true)
    ∧ (∀ (st : SessionState) (r t : Option String),
        openai_step st (.created r t)
          = ({ st with suppress_outbound := false,
                       current_response_id := pyOr r t }, []))
    ∧ (∀ (st : SessionState) (evs : List LiveEv),
        st.suppress_outbound = true →
        (∀ e ∈ evs, isCreatedEv e = false) →
        twSends (runLive st evs).2 = []) :=
  ⟨live_step_suppressed, fun _ _ _ => rfl,
   fun st evs h hne => runLive_suppressed evs st h hne⟩

/-- Witness for C2: from a suppressed state, a delta, a media frame and a
done event forward nothing to Twilio. -/
theorem suppression_invariant_witness :
    ({ initState with suppress_outbound := true } : SessionState).suppress_outbound = true
    ∧ twSends (runLive { initState with suppress_outbound := true }
        [.oai (.delta (some "x")), .media [0], .oai .done]).2 = [] :=
  ⟨rfl, suppression_invariant.2.2 { initState with suppress_outbound := true }
    [.oai (.delta (some "x")), .media [0], .oai .done] rfl (by decide)⟩

/-- Witness for C1: from a fresh speaking state, six consecutive frames of
the loudest μ-law byte (a 120 ms unbroken above-gate run) trigger exactly one
cancellation; five loud frames broken by a quiet one trigger none. -/
theorem barge_in_gate_witness :
    ({ initState with speaking := true } : SessionState).speaking = true
    ∧ LOUD_MS_REQUIRED
        ≤ FRAME_MS * longestTrueRun (([[0],[0],[0],[0],[0],[0]].map frame_loud))
    ∧ cancelCount (runMedia { initState with speaking := true }
        [[0],[0],[0],[0],[0],[0]]).2 = 1
    ∧ FRAME_MS * longestTrueRun (([[0],[0],[255],[0],[0],[0]].map frame_loud))
        < LOUD_MS_REQUIRED
    ∧ cancelCount (runMedia { initState with speaking := true }
        [[0],[0],[255],[0],[0],[0]]).2 = 0 :=
  ⟨rfl, by decide,
   (barge_in_gate.2.2.2.2 { initState with speaking := true }
     [[0],[0],[0],[0],[0],[0]] rfl rfl (by decide)).1,
   by decide,
   barge_in_gate.2.2.2.1 { initState with speaking := true }
     [[0],[0],[255],[0],[0],[0]] rfl rfl (by decide)⟩

/-! ## C4 — hard-cancel step sequence -/

/-- C4: when hard-cancel fires it (1) sets `suppress_outbound := true` and
`speaking := false` as the first two operations, before any send; (2) sends a
cancel targeted at the recorded response id when one is recorded (truthy),
and an untargeted cancel otherwise; (3) sends the input-buffer clear; and
(4) ends with `current_response_id` cleared and the sustained-loudness
accumulator reset. -/
theorem hard_cancel_steps :
    ∀ st : SessionState,
      (fire_hard_cancel_acts st.current_response_id).take 2
          = [.setSuppress true, .setSpeaking false]
      ∧ (∀ id : String, st.current_response_id = some id → id ≠ "" →
          sendsOf (fire_hard_cancel_acts st.current_response_id)
            = [OAIMsg.cancelTargeted id, .clearInput])
      ∧ (truthy st.current_response_id = false →
          sendsOf (fire_hard_cancel_acts st.current_response_id)
            = [OAIMsg.cancelUntargeted, .clearInput])
      ∧ (fire_hard_cancel_acts st.current_response_id).foldl applyHAct st
          = { st with suppress_outbound := true, speaking := false,
                      current_response_id := none, loud_ms_accum := 0 } := by
  intro st
  refine ⟨rfl, ?_, ?_, rfl⟩
  · intro id hid hne
    rw [hid]
    simp [fire_hard_cancel_acts, hard_cancel_acts, sendsOf, cancelMsgFor, hne]
  · intro hfalse
    cases hrid : st.current_response_id with
    | none => rfl
    | some id =>
        rw [hrid] at hfalse
        simp only [truthy, ne_eq, decide_not, Bool.not_eq_false', decide_eq_true_eq] at hfalse
        subst hfalse
        rfl

/-- Witness for C4: a recorded id "r7" yields a targeted cancel, no recorded
id an untargeted one; the first two operations set the flags. -/
theorem hard_cancel_steps_witness :
    sendsOf (fire_hard_cancel_acts (some "r7"))
        = [OAIMsg.cancelTargeted "r7", .clearInput]
    ∧ sendsOf (fire_hard_cancel_acts none)
        = [OAIMsg.cancelUntargeted, .clearInput]
    ∧ (fire_hard_cancel_acts (some "r7")).take 2
        = [HAct.setSuppress true, HAct.setSpeaking false] :=
  ⟨(hard_cancel_steps { initState with current_response_id := some "r7" }).2.1
      "r7" rfl (by decide),
   (hard_cancel_steps initState).2.2.1 rfl,
   (hard_cancel_steps { initState with current_response_id := some "r7" }).1⟩

/-! ## C8 — unknown events are no-ops; malformed media is not survived -/

/-- C8 counterexample: a telephony `media` event whose `media`/`payload`
field is missing, or whose payload is not decodable base64, raises an
uncaught exception (only `WebSocketDisconnect` is caught at lines 171-172),
terminating the inbound pump with an error — contrary to the claim that no
malformed event terminates the pump. -/
theorem malformed_media_terminates :
    twilio_step initState TwMsg.mediaMalformed = Except.error () := rfl

/-- C8 (amended): inbound telephony messages whose event type is neither
`media` nor `stop`, and upstream events whose type is not
`response.created` / `response.output_audio.delta` /
`response.output_audio.done`, are no-ops on the session state and send
nothing; but a `media` event with a missing or undecodable payload and a
non-JSON telephony message terminate the inbound pump with an error, and an
unparseable upstream message ends the outbound pump (its blanket handler
swallows the exception). -/
theorem unknown_events_ignored :
    (∀ (st : SessionState) (e : Option String),
        twilio_step st (.other e) = .ok (st, [], false))
    ∧ (∀ st : SessionState, openai_step st .other = (st, []))
    ∧ (∀ st : SessionState, twilio_step st .mediaMalformed = .error ())
    ∧ (∀ st : SessionState, twilio_step st .unparseable = .error ())
    ∧ (∀ st : SessionState, openai_pump_step st .unparseable = .error ()) :=
  ⟨fun _ _ => rfl, fun _ => rfl, fun _ => rfl, fun _ => rfl, fun _ => rfl⟩

/-! ## C9 — unconditional scripted greeting -/

/-- C9: during session setup exactly one scripted greeting request is sent,
right after the session configuration and before the pumps run; the setup
messages do not depend on the stream identifier (the only caller input
available) or any flag. -/
theorem greeting_unconditional :
    ∀ sid sid' : String,
      (session_setup sid).count OAIMsg.greetingCreate = 1
      ∧ session_setup sid = [OAIMsg.sessionUpdate, OAIMsg.greetingCreate]
      ∧ session_setup sid = session_setup sid' :=
  fun _ _ => ⟨rfl, rfl, rfl⟩

/-! ## C10 — every media frame is appended after barge-in processing -/

theorem applyBuf_cancelMsgFor (buf : List (List Nat)) (rid : Option String) :
    applyBuf buf (cancelMsgFor rid) = buf := by
  cases rid with
  | none => rfl
  | some id => by_cases h : id = "" <;> simp [cancelMsgFor, h, applyBuf]

theorem cancelMsgFor_ne_append (rid : Option String) (q : List Nat) :
    Act.sendOAI (cancelMsgFor rid) ≠ Act.sendOAI (.appendAudio q) := by
  cases rid with
  | none => simp [cancelMsgFor]
  | some id => by_cases h : id = "" <;> simp [cancelMsgFor, h]

/-- C10: every inbound media frame's processing ends by appending the frame
to the upstream input buffer and rescheduling the debounce timer, after any
barge-in processing; no earlier action of the step is an append, and when the
step fires a hard-cancel the buffer clear precedes the append, so the
triggering frame alone remains in the upstream buffer. -/
theorem media_frame_appended :
    ∀ (st : SessionState) (p : List Nat),
      (∃ pre : List Act,
        (twilio_media_step st p).2
            = pre ++ [Act.sendOAI (.appendAudio p), Act.schedule]
        ∧ ∀ a ∈ pre, ∀ q : List Nat, a ≠ Act.sendOAI (.appendAudio q))
      ∧ (∀ buf, ∃ buf',
          bufAfter buf (oaiSends (twilio_media_step st p).2) = buf' ++ [p])
      ∧ (1 ≤ cancelCount (twilio_media_step st p).2 →
          ∀ buf, bufAfter buf (oaiSends (twilio_media_step st p).2) = [p]) := by
  intro st p
  by_cases hplain : twilio_media_step st p
      = ({ st with speaking := false, suppress_outbound := true,
                   current_response_id := none, loud_ms_accum := 0 },
         [Act.sendOAI (cancelMsgFor st.current_response_id),
          Act.sendOAI .clearInput,
          Act.sendOAI (.appendAudio p), Act.schedule])
  · rw [hplain]
    refine ⟨⟨[Act.sendOAI (cancelMsgFor st.current_response_id), Act.sendOAI .clearInput],
        rfl, ?_⟩, ?_, ?_⟩
    · intro a ha q
      rcases List.mem_cons.mp ha with h | h
      · subst h; exact cancelMsgFor_ne_append _ q
      · rcases List.mem_singleton.mp h with rfl
        simp
    · intro buf
      refine ⟨[], ?_⟩
      simp [bufAfter, oaiSends, List.filterMap_cons, applyBuf, applyBuf_cancelMsgFor]
    · intro _ buf
      simp [bufAfter, oaiSends, List.filterMap_cons, applyBuf, applyBuf_cancelMsgFor]
  · have hsnd : (twilio_media_step st p).2
        = [Act.sendOAI (.appendAudio p), Act.schedule] := by
      cases hs : st.speaking with
      | false => rw [media_step_not_speaking st p hs]
      | true =>
          cases hl : frame_loud p with
          | false => rw [media_step_quiet st p hs hl]
          | true =>
              by_cases hacc : LOUD_MS_REQUIRED ≤ st.loud_ms_accum + FRAME_MS
              · exact absurd (media_step_trigger st p hs hl hacc) hplain
              · rw [media_step_accum st p hs hl (by omega)]
    rw [hsnd]
    refine ⟨⟨[], rfl, by simp⟩, ?_, ?_⟩
    · intro buf
      exact ⟨buf, by simp [bufAfter, oaiSends, List.filterMap_cons, applyBuf]⟩
    · intro habs
      exfalso
      simp [cancelCount, isCancel] at habs

/-- Witness for C10: the frame that fires the hard-cancel survives alone in
the upstream buffer (the clear precedes its append). -/
theorem media_frame_appended_witness :
    1 ≤ cancelCount (twilio_media_step
        { initState with speaking := true, loud_ms_accum := 100 } [0]).2
    ∧ bufAfter [[1], [2]] (oaiSends (twilio_media_step
        { initState with speaking := true, loud_ms_accum := 100 } [0]).2) = [[0]] :=
  ⟨by decide,
   (media_frame_appended { initState with speaking := true, loud_ms_accum := 100 } [0]).2.2
     (by decide) [[1], [2]]⟩

/-! ## Timer-pool lemmas (C3, C5) -/

theorem runB_nil (W : Nat) (s : BState) : runB W s [] = (fireAll s).2 := rfl

theorem runB_cons (W : Nat) (s : BState) (e : Nat × BEv) (es : List (Nat × BEv)) :
    runB W s (e :: es) = (stepB W s e).2 ++ runB W (stepB W s e).1 es := rfl

theorem cancelTask_length (l : List BTask) (i : Nat) :
    (cancelTask l i).length = l.length := by
  induction l generalizing i with
  | nil => rfl
  | cons t ts ih =>
      cases i with
      | zero => simp [cancelTask]
      | succ j => simp [cancelTask, ih]

theorem cancelTask_getElem?_ne (l : List BTask) (i j : Nat) (h : j ≠ i) :
    (cancelTask l i)[j]? = l[j]? := by
  induction l generalizing i j with
  | nil => rfl
  | cons t ts ih =>
      cases i with
      | zero =>
          cases j with
          | zero => exact absurd rfl h
          | succ k => simp [cancelTask]
      | succ i' =>
          cases j with
          | zero => simp [cancelTask]
          | succ k =>
              simp only [cancelTask, List.getElem?_cons_succ]
              exact ih i' k (fun hk => h (by rw [hk]))

theorem cancelTask_getElem?_run (l : List BTask) (i : Nat) (d : Nat)
    (h : l[i]? = some (d, TStat.running)) :
    (cancelTask l i)[i]? = some (d, TStat.cancelled) := by
  induction l generalizing i with
  | nil => simp at h
  | cons t ts ih =>
      cases i with
      | zero =>
          have ht : t = (d, TStat.running) := by simpa using h
          subst ht
          simp [cancelTask]
      | succ j =>
          simp only [cancelTask, List.getElem?_cons_succ] at h ⊢
          exact ih j h

theorem cancelTask_getElem?_self_not_run (l : List BTask) (i : Nat) (d : Nat) :
    (cancelTask l i)[i]? ≠ some (d, TStat.running) := by
  induction l generalizing i with
  | nil => simp [cancelTask]
  | cons t ts ih =>
      cases i with
      | zero =>
          by_cases ht : t.2 = TStat.running
          · simp [cancelTask, ht]
          · simp only [cancelTask, if_neg ht, List.getElem?_cons_zero]
            intro he
            exact ht (by rw [Option.some.injEq] at he; rw [he])
      | succ j =>
          simp only [cancelTask, List.getElem?_cons_succ]
          exact ih j

theorem cancelTask_append_last (l : List BTask) (d : Nat) :
    cancelTask (l ++ [(d, TStat.running)]) l.length
      = l ++ [(d, TStat.cancelled)] := by
  induction l with
  | nil => simp [cancelTask]
  | cons t ts ih => simp [cancelTask, ih]

/-- The pointing invariant: every running timer task is the one the
`commit_task` variable refers to. -/
def PInv (s : BState) : Prop :=
  ∀ i d, s.tasks[i]? = some (d, TStat.running) → s.cur = some i

theorem PInv_init : PInv initB := by
  intro i d h
  simp [initB] at h

theorem PInv_fireTasks (p : BTask → Bool) (s : BState) (h : PInv s) :
    PInv (fireTasks p s).1 := by
  intro i d hi
  simp only [fireTasks, List.getElem?_map] at hi ⊢
  cases htk : s.tasks[i]? with
  | none => rw [htk] at hi; simp at hi
  | some tk =>
      rw [htk] at hi
      simp only [Option.map_some'] at hi
      by_cases hp : p tk = true
      · rw [if_pos hp] at hi
        simp at hi
      · rw [if_neg hp] at hi
        rw [Option.some.injEq] at hi
        exact h i d (by rw [htk, hi])

theorem PInv_fireDue (t : Nat) (s : BState) (h : PInv s) : PInv (fireDue t s).1 :=
  PInv_fireTasks _ s h

theorem PInv_schedule (now W : Nat) (s : BState) (h : PInv s) :
    PInv (schedule_commit_B now W s) := by
  intro i d hi
  cases hcur : s.cur with
  | none =>
      simp only [schedule_commit_B, hcur] at hi ⊢
      rw [List.getElem?_append] at hi
      by_cases hlt : i < s.tasks.length
      · rw [if_pos hlt] at hi
        have := h i d hi
        rw [hcur] at this
        exact absurd this (by simp)
      · rw [if_neg hlt] at hi
        have hi0 : i - s.tasks.length = 0 := by
          rcases List.getElem?_eq_some_iff.mp hi with ⟨hlen, -⟩
          simp at hlen
          omega
        have : i = s.tasks.length := by omega
        rw [this]
  | some k =>
      simp only [schedule_commit_B, hcur] at hi ⊢
      rw [List.getElem?_append] at hi
      by_cases hlt : i < (cancelTask s.tasks k).length
      · rw [if_pos hlt] at hi
        by_cases hik : i = k
        · subst hik
          exact absurd hi (cancelTask_getElem?_self_not_run _ _ _)
        · rw [cancelTask_getElem?_ne s.tasks k i hik] at hi
          have := h i d hi
          rw [hcur, Option.some.injEq] at this
          exact absurd this.symm hik
      · rw [if_neg hlt] at hi
        have hi0 : i - (cancelTask s.tasks k).length = 0 := by
          rcases List.getElem?_eq_some_iff.mp hi with ⟨hlen, -⟩
          simp at hlen
          omega
        have : i = (cancelTask s.tasks k).length := by omega
        rw [this]

theorem countP_le_one_of_pointed :
    ∀ (l : List BTask) (c : Option Nat),
      (∀ i d, l[i]? = some (d, TStat.running) → c = some i) →
      l.countP (fun tk => decide (tk.2 = TStat.running)) ≤ 1 := by
  intro l
  induction l with
  | nil => intro c _; simp
  | cons tk ts ih =>
      intro c h
      rw [List.countP_cons]
      by_cases hr : tk.2 = TStat.running
      · have hc : c = some 0 := h 0 tk.1 (by simp [← hr])
        have hts : ts.countP (fun tk => decide (tk.2 = TStat.running)) = 0 := by
          rw [List.countP_eq_zero]
          intro a ha
          simp only [decide_eq_true_eq]
          intro hra
          obtain ⟨n, hn⟩ := List.mem_iff_getElem?.mp ha
          have hpt := h (n + 1) a.1
            (by simp only [List.getElem?_cons_succ]; rw [hn, ← hra])
          rw [hc] at hpt
          simp at hpt
        rw [hts]
        simp [hr]
      · rw [if_neg (by simpa using hr)]
        have hrec : ts.countP (fun tk => decide (tk.2 = TStat.running)) ≤ 1 := by
          cases hc : c with
          | none =>
              refine ih none (fun i d hi => ?_)
              have := h (i + 1) d (by simpa using hi)
              rw [hc] at this
              exact absurd this (by simp)
          | some k =>
              cases k with
              | zero =>
                  refine ih none (fun i d hi => ?_)
                  have := h (i + 1) d (by simpa using hi)
                  rw [hc] at this
                  rw [Option.some.injEq] at this
                  omega
              | succ j =>
                  refine ih (some j) (fun i d hi => ?_)
                  have := h (i + 1) d (by simpa using hi)
                  rw [hc, Option.some.injEq] at this
                  exact congrArg some (by omega)
        omega

theorem stepB_PInv (W : Nat) (s : BState) (e : Nat × BEv) (h : PInv s) :
    PInv (stepB W s e).1 := by
  obtain ⟨t, ev⟩ := e
  cases ev with
  | frame =>
      simp only [stepB]
      exact PInv_schedule _ _ _ (PInv_fireDue _ _ h)
  | stop =>
      simp only [stepB]
      exact PInv_fireDue _ _ h

theorem stateAfter_PInv (W : Nat) (evs : List (Nat × BEv)) :
    ∀ s : BState, PInv s → PInv (stateAfter W s evs) := by
  induction evs with
  | nil => intro s h; exact h
  | cons e es ih => intro s h; exact ih _ (stepB_PInv W s e h)

theorem countRunning_stateAfter (W : Nat) (evs : List (Nat × BEv)) :
    countRunning (stateAfter W initB evs) ≤ 1 :=
  countP_le_one_of_pointed _ _ (stateAfter_PInv W evs initB PInv_init)

/-- The shape every reachable timer pool has during a run of frames: a
prefix of used-up (cancelled or fired) tasks and exactly one running task,
the current one, with deadline `d`. -/
def OnlyLast (s : BState) (d : Nat) : Prop :=
  ∃ pre : List BTask,
    s.tasks = pre ++ [(d, TStat.running)]
    ∧ (∀ tk ∈ pre, tk.2 ≠ TStat.running)
    ∧ s.cur = some pre.length

theorem fireDue_noop (t d : Nat) (s : BState) (hol : OnlyLast s d) (ht : t < d) :
    fireDue t s = (s, []) := by
  obtain ⟨pre, htasks, hpre, hcur⟩ := hol
  have hmem : ∀ tk ∈ s.tasks,
      (decide (tk.2 = TStat.running ∧ tk.1 ≤ t)) = false := by
    intro tk hm
    rw [htasks] at hm
    simp only [decide_eq_false_iff_not, not_and]
    rcases List.mem_append.mp hm with hm | hm
    · intro hr
      exact absurd hr (hpre tk hm)
    · rcases List.mem_singleton.mp hm with rfl
      intro _
      omega
  have hmap : s.tasks.map (fun tk =>
      if decide (tk.2 = TStat.running ∧ tk.1 ≤ t) then (tk.1, TStat.taskDone) else tk)
      = s.tasks := by
    have hcongr : s.tasks.map (fun tk =>
        if decide (tk.2 = TStat.running ∧ tk.1 ≤ t) then (tk.1, TStat.taskDone) else tk)
        = s.tasks.map id :=
      List.map_congr_left (fun a ha => by rw [hmem a ha]; rfl)
    rw [hcongr, List.map_id]
  have hfil : s.tasks.filter (fun tk => decide (tk.2 = TStat.running ∧ tk.1 ≤ t)) = [] :=
    List.filter_eq_nil_iff.mpr (fun a ha => by rw [hmem a ha]; simp)
  show fireTasks _ s = (s, [])
  rw [fireTasks, hmap, hfil]
  rfl

theorem fireAll_onlyLast (s : BState) (d : Nat) (hol : OnlyLast s d) :
    (fireAll s).2 = [(d, BMsg.commitBuf), (d, BMsg.respCreate)] := by
  obtain ⟨pre, htasks, hpre, hcur⟩ := hol
  simp only [fireAll, fireTasks]
  rw [htasks, List.filter_append]
  have h1 : pre.filter (fun tk => decide (tk.2 = TStat.running)) = [] :=
    List.filter_eq_nil_iff.mpr (fun a ha => by simpa using hpre a ha)
  rw [h1]
  simp

theorem schedule_onlyLast (now W : Nat) (s : BState) (d : Nat) (hol : OnlyLast s d) :
    OnlyLast (schedule_commit_B now W s) (now + W) := by
  obtain ⟨pre, htasks, hpre, hcur⟩ := hol
  refine ⟨pre ++ [(d, TStat.cancelled)], ?_, ?_, ?_⟩
  · simp only [schedule_commit_B, hcur, htasks]
    rw [cancelTask_append_last]
  · intro tk hm
    rcases List.mem_append.mp hm with hm | hm
    · exact hpre tk hm
    · rcases List.mem_singleton.mp hm with rfl
      simp
  · simp only [schedule_commit_B, hcur, htasks]
    rw [cancelTask_append_last]

/-- Deadline of the pending timer after a run of frames: the last frame's
time plus the debounce window (or the incoming deadline when no frames). -/
def endD (W : Nat) : List Nat → Nat → Nat
  | [], d => d
  | t :: ts, _ => endD W ts (t + W)

theorem endD_cons (W t : Nat) (ts : List Nat) (d : Nat) :
    endD W (t :: ts) d = endD W ts (t + W) := rfl

theorem endD_spec (W : Nat) : ∀ (ts : List Nat) (d : Nat),
    endD W ts d = (match ts.getLast? with
                   | none => d
                   | some u => u + W) := by
  intro ts
  induction ts with
  | nil => intro d; rfl
  | cons u us ih =>
      intro d
      rw [endD_cons, ih (u + W)]
      cases us with
      | nil => rfl
      | cons v vs =>
          rw [List.getLast?_cons_cons]
          cases hg : (v :: vs).getLast? with
          | none => exact absurd (List.getLast?_eq_none_iff.mp hg) (by simp)
          | some w => rfl

/-- Each frame arrives strictly before the currently pending deadline. -/
def framesOK (W : Nat) : Nat → List Nat → Prop
  | _, [] => True
  | bound, t :: ts => t < bound ∧ framesOK W (t + W) ts

theorem chain'_framesOK (W : Nat) : ∀ (t : Nat) (ts : List Nat),
    List.Chain' (fun a b => a ≤ b ∧ b < a + W) (t :: ts) →
    framesOK W (t + W) ts := by
  intro t ts
  induction ts generalizing t with
  | nil => intro _; trivial
  | cons u us ih =>
      intro h
      rw [List.chain'_cons] at h
      exact ⟨h.1.2, ih u h.2⟩

/-- Running a gap-bounded sequence of frames from an `OnlyLast` state emits
nothing and ends in an `OnlyLast` state whose deadline is `endD`. -/
theorem frames_run (W : Nat) (times : List Nat) :
    ∀ (s : BState) (d : Nat), OnlyLast s d → framesOK W d times →
      ∃ s' : BState, OnlyLast s' (endD W times d)
        ∧ ∀ rest, runB W s (times.map (fun t => (t, BEv.frame)) ++ rest)
            = runB W s' rest := by
  induction times with
  | nil =>
      intro s d hol _
      exact ⟨s, hol, fun rest => by simp⟩
  | cons t ts ih =>
      intro s d hol hok
      obtain ⟨ht, hok'⟩ := hok
      have hstep : stepB W s (t, BEv.frame) = (schedule_commit_B t W s, []) := by
        simp only [stepB, fireDue_noop t d s hol ht]
      obtain ⟨s', hol', hrun⟩ := ih (schedule_commit_B t W s) (t + W)
        (schedule_onlyLast t W s d hol) hok'
      refine ⟨s', hol', fun rest => ?_⟩
      rw [List.map_cons, List.cons_append, runB_cons, hstep]
      simp only [List.nil_append]
      exact hrun rest

/-- The OnlyLast state reached after the first frame from the initial pool. -/
theorem first_frame_onlyLast (W t : Nat) :
    stepB W initB (t, BEv.frame) = (schedule_commit_B t W initB, [])
    ∧ OnlyLast (schedule_commit_B t W initB) (t + W) := by
  constructor
  · rfl
  · exact ⟨[], rfl, by simp, rfl⟩

/-- A gap-bounded nonempty run of frames produces exactly one
commit + response-request pair, `W` after the last frame. -/
theorem runB_frames_exact (W : Nat) (times : List Nat) (tl : Nat)
    (hchain : times.Chain' (fun a b => a ≤ b ∧ b < a + W))
    (hlast : times.getLast? = some tl) :
    runB W initB (times.map (fun t => (t, BEv.frame)))
      = [(tl + W, BMsg.commitBuf), (tl + W, BMsg.respCreate)] := by
  cases times with
  | nil => simp at hlast
  | cons t ts =>
      have hfok : framesOK W (t + W) ts := chain'_framesOK W t ts hchain
      obtain ⟨s', hol', hrun⟩ := frames_run W ts (schedule_commit_B t W initB) (t + W)
        (first_frame_onlyLast W t).2 hfok
      have hend : endD W ts (t + W) = tl + W := by
        cases ts with
        | nil =>
            have h1 : t = tl := by simpa using hlast
            simp [endD, h1]
        | cons v vs =>
            rw [List.getLast?_cons_cons] at hlast
            rw [endD_spec, hlast]
      rw [List.map_cons, runB_cons, (first_frame_onlyLast W t).1]
      have hrest := hrun []
      rw [List.append_nil] at hrest
      rw [List.nil_append, hrest, runB_nil, fireAll_onlyLast s' _ hol', hend]

/-- A stop arriving while the timer is pending: the immediate final pair is
emitted at the stop time, and the uncancelled timer still fires at its
deadline, emitting a second pair. -/
theorem runB_frames_stop (W : Nat) (times : List Nat) (tl tstop : Nat)
    (hchain : times.Chain' (fun a b => a ≤ b ∧ b < a + W))
    (hlast : times.getLast? = some tl)
    (hstop : tstop < tl + W) :
    runB W initB (times.map (fun t => (t, BEv.frame)) ++ [(tstop, BEv.stop)])
      = [(tstop, BMsg.commitBuf), (tstop, BMsg.respCreate),
         (tl + W, BMsg.commitBuf), (tl + W, BMsg.respCreate)] := by
  cases times with
  | nil => simp at hlast
  | cons t ts =>
      have hfok : framesOK W (t + W) ts := chain'_framesOK W t ts hchain
      obtain ⟨s', hol', hrun⟩ := frames_run W ts (schedule_commit_B t W initB) (t + W)
        (first_frame_onlyLast W t).2 hfok
      have hend : endD W ts (t + W) = tl + W := by
        cases ts with
        | nil =>
            have h1 : t = tl := by simpa using hlast
            simp [endD, h1]
        | cons v vs =>
            rw [List.getLast?_cons_cons] at hlast
            rw [endD_spec, hlast]
      rw [hend] at hol'
      have hstepstop : stepB W s' (tstop, BEv.stop)
          = (s', [(tstop, BMsg.commitBuf), (tstop, BMsg.respCreate)]) := by
        simp only [stepB, fireDue_noop tstop (tl + W) s' hol' hstop]
        rfl
      rw [List.map_cons, List.cons_append, runB_cons, (first_frame_onlyLast W t).1]
      rw [List.nil_append, hrun [(tstop, BEv.stop)], runB_cons, hstepstop]
      rw [runB_nil, fireAll_onlyLast s' _ hol']
      rfl

/-! ## C3 — single debounce timer, one commit per run -/

/-- C3: scheduling a new debounce timer cancels the prior uncompleted one, so
at most one timer is ever outstanding (for arbitrary timed event sequences);
consequently a run of inbound frames with every inter-frame gap strictly
below the debounce window emits at most one commit + response-request pair —
exactly one for a nonempty run, fired `W` after the last frame. -/
theorem debounce_single_timer :
    (∀ (W : Nat) (evs : List (Nat × BEv)), countRunning (stateAfter W initB evs) ≤ 1)
    ∧ (∀ (now W : Nat) (s : BState) (i d : Nat),
        s.cur = some i → s.tasks[i]? = some (d, TStat.running) →
        (schedule_commit_B now W s).tasks[i]? = some (d, TStat.cancelled))
    ∧ (∀ (W : Nat) (times : List Nat),
        times.Chain' (fun a b => a ≤ b ∧ b < a + W) →
        commitCount (runB W initB (times.map (fun t => (t, BEv.frame)))) ≤ 1)
    ∧ (∀ (W : Nat) (times : List Nat) (tl : Nat),
        times.Chain' (fun a b => a ≤ b ∧ b < a + W) →
        times.getLast? = some tl →
        runB W initB (times.map (fun t => (t, BEv.frame)))
          = [(tl + W, BMsg.commitBuf), (tl + W, BMsg.respCreate)]) := by
  refine ⟨countRunning_stateAfter, ?_, ?_, fun W times tl hc hl => runB_frames_exact W times tl hc hl⟩
  · intro now W s i d hc hr
    have hlen : i < s.tasks.length := by
      rcases List.getElem?_eq_some_iff.mp hr with ⟨hl, -⟩
      exact hl
    simp only [schedule_commit_B, hc]
    rw [List.getElem?_append, if_pos (by rw [cancelTask_length]; exact hlen)]
    exact cancelTask_getElem?_run s.tasks i d hr
  · intro W times hchain
    cases hlast : times.getLast? with
    | none =>
        have : times = [] := List.getLast?_eq_none_iff.mp hlast
        subst this
        simp [runB_nil, fireAll, fireTasks, initB, commitCount]
    | some tl =>
        rw [runB_frames_exact W times tl hchain hlast]
        rfl

/-- Witness for C3: frames at 0, 100, 200 ms with a 450 ms window yield the
single pair at 650 ms; the timer pool after those frames holds at most one
running task. -/
theorem debounce_single_timer_witness :
    runB 450 initB ([0, 100, 200].map (fun t => (t, BEv.frame)))
      = [(650, BMsg.commitBuf), (650, BMsg.respCreate)]
    ∧ countRunning (stateAfter 450 initB
        ([0, 100, 200].map (fun t => (t, BEv.frame)))) ≤ 1 :=
  ⟨debounce_single_timer.2.2.2 450 [0, 100, 200] 200
     (by simp [List.chain'_cons, List.chain'_singleton]) (by decide),
   debounce_single_timer.1 450 ([0, 100, 200].map (fun t => (t, BEv.frame)))⟩

/-! ## C5 — stop during debounce: the pending timer is NOT cancelled -/

/-- C5 counterexample: a frame at 0 ms then a stop at 100 ms (debounce window
450 ms, timer still pending).  The code's `finally` block emits an immediate
commit + response-request at the stop, but nothing cancels `commit_task`, so
the timer fires at 450 ms and emits a second pair — two commits, not the
"exactly once" the claim states. -/
theorem stop_mid_debounce_cex :
    runB 450 initB [(0, BEv.frame), (100, BEv.stop)]
      = [(100, BMsg.commitBuf), (100, BMsg.respCreate),
         (450, BMsg.commitBuf), (450, BMsg.respCreate)]
    ∧ commitCount (runB 450 initB [(0, BEv.frame), (100, BEv.stop)]) = 2 := by
  exact ⟨rfl, rfl⟩

/-- C5 (amended): when the stop event arrives while a debounce timer is
pending, an immediate commit + response-request pair is issued at the stop
time, but the pending timer is not cancelled: it fires at its deadline
(`debounceWindow` after the last frame) and emits a duplicate pair. -/
theorem stop_mid_debounce :
    ∀ (W : Nat) (times : List Nat) (tl tstop : Nat),
      times.Chain' (fun a b => a ≤ b ∧ b < a + W) →
      times.getLast? = some tl →
      tl ≤ tstop → tstop < tl + W →
      runB W initB (times.map (fun t => (t, BEv.frame)) ++ [(tstop, BEv.stop)])
        = [(tstop, BMsg.commitBuf), (tstop, BMsg.respCreate),
           (tl + W, BMsg.commitBuf), (tl + W, BMsg.respCreate)] :=
  fun W times tl tstop hchain hlast _ hstop =>
    runB_frames_stop W times tl tstop hchain hlast hstop

/-- Witness for C5: frames at 0, 100, 200 ms, stop at 300 ms, window 450 ms:
immediate pair at 300 ms plus the uncancelled timer's pair at 650 ms. -/
theorem stop_mid_debounce_witness :
    runB 450 initB ([0, 100, 200].map (fun t => (t, BEv.frame)) ++ [(300, BEv.stop)])
      = [(300, BMsg.commitBuf), (300, BMsg.respCreate),
         (650, BMsg.commitBuf), (650, BMsg.respCreate)] :=
  stop_mid_debounce 450 [0, 100, 200] 200 300
    (by simp [List.chain'_cons, List.chain'_singleton]) (by decide)
    (by decide) (by decide)

end Vesta
